import Mathlib

/-! Verification development for `seed.py`, a one-shot script that populates a
task-tracking database with synthetic sessions.

Shallow embedding conventions:
* An epoch-millisecond timestamp is an `Int`.
* A calendar date is its proleptic ordinal day number (`Int`), as in Python
  `date.toordinal()`; ordinal 1 is a Monday, so `weekday d = (d + 6) % 7`.
  Adding a `timedelta(days = k)` is adding `k`.
* A calendar day handed to `gen_sessions` is represented by the epoch
  milliseconds of its local midnight (`mid : Int`); `to_ms d h m` is then
  `mid + (60 * h + m) * 60000`.
* Python floats are modelled as rationals (`ℚ`); Python `int()` truncates
  toward zero, modelled by `pyInt`.
* Randomness is modelled by oracle parameters: each draw of the script is a
  parameter constrained by the range the corresponding `random` call
  guarantees (`randint a b` gives a value in `[a, b]`, `uniform a b` a
  rational in `[a, b]`, `choices [1,2,3]` an `n` with `1 ≤ n ≤ 3`).
* The database is a pair of maps (`users` keyed by email, `user_data` keyed
  by user id); the upsert is a pointwise function update.
-/

namespace Seed

/-- A work session: `start` and `stop` are epoch-millisecond timestamps.
The JSON field named `end` in the source is called `stop` here because `end`
is a Lean keyword. -/
structure Session where
  start : Int
  stop : Int
deriving DecidableEq, Repr

/-- A task: an uninterpreted `id`, a `name`, and its list of sessions, mirroring the
JSON objects `{"id": ..., "name": ..., "sessions": [...]}`. -/
structure Task where
  id : String
  name : String
  sessions : List Session
deriving DecidableEq, Repr

/-- One entry of the `SEED_TASKS` / `EXISTING_SEEDS` tables:
`{"name": ..., "freq": ..., "min_h": ..., "max_h": ...}`. -/
structure TaskSpec where
  name : String
  freq : ℚ
  min_h : ℚ
  max_h : ℚ
deriving DecidableEq

/-- The `SEED_TASKS` table of `seed.py` (lines 19-25). -/
def SEED_TASKS : List TaskSpec :=
  [⟨"deep work", 85/100, 1, 35/10⟩,
   ⟨"email & slack", 90/100, 3/10, 12/10⟩,
   ⟨"code review", 65/100, 5/10, 2⟩,
   ⟨"meetings", 55/100, 5/10, 2⟩,
   ⟨"planning", 40/100, 3/10, 1⟩]

/-- The `EXISTING_SEEDS` dict of `seed.py` (lines 27-30), as an association
list in insertion order. -/
def EXISTING_SEEDS : List TaskSpec :=
  [⟨"React Query", 55/100, 5/10, 25/10⟩,
   ⟨"Interview Prep", 45/100, 5/10, 15/10⟩]

/-- Python `int()` applied to a rational: truncation toward zero. -/
def pyInt (q : ℚ) : Int := if q < 0 then ⌈q⌉ else ⌊q⌋

/-- Embedding of `to_ms(d, hour, minute)` where the day is given by its midnight epoch
milliseconds `mid`. -/
def to_ms (mid : Int) (hour : Int) (minute : Int := 0) : Int :=
  mid + (hour * 60 + minute) * 60000

/-- Value `day_start` of `gen_sessions`: 09:00 of the day. -/
def day_start (mid : Int) : Int := to_ms mid 9

/-- Value `day_end` of `gen_sessions`: 18:30 of the day. -/
def day_end (mid : Int) : Int := to_ms mid 18 30

/-- Embedding of `total_ms = int(total_hours * 3_600_000)`. -/
def total_ms (total_hours : ℚ) : Int := pyInt (total_hours * 3600000)

/-- Embedding of `latest = max(day_start, day_end - total_ms - 1_800_000)`: the upper
bound handed to `randint` for the initial cursor. -/
def latest (mid : Int) (total_hours : ℚ) : Int :=
  max (day_start mid) (day_end mid - total_ms total_hours - 1800000)

/-- The `for i in range(n)` loop of `gen_sessions` (lines 45-55).
`u j` is the draw of `random.uniform(0.35, 0.60)` at iteration `j`, and
`g j` the draw of `random.randint(5, 25)`; both are oracle parameters.
The two `break` statements become the non-recursive branches. The loop is
driven structurally by `fuel`, the number of loop iterations still allowed;
it is called with `fuel = n - i`, so the `i < n` range test and the
`fuel = 0` test agree and the recursion is faithful to `for i in range(n)`. -/
def genLoop (dayEnd : Int) (u : Nat → ℚ) (g : Nat → Int) (n : Nat) :
    Nat → Nat → Int → Int → List Session
  | 0, _, _, _ => []
  | fuel + 1, i, cursor, remaining =>
    if i < n then
      let chunk : Int := if i = n - 1 then remaining else pyInt ((remaining : ℚ) * u i)
      let endTs : Int := min (cursor + chunk) dayEnd
      let s : Session := ⟨cursor, endTs⟩
      let remaining2 : Int := remaining - (endTs - cursor)
      if remaining2 ≤ 0 then [s]
      else
        let cursor2 : Int := endTs + g i * 60000
        if dayEnd ≤ cursor2 then [s]
        else s :: genLoop dayEnd u g n fuel (i + 1) cursor2 remaining2
    else []

/-- Embedding of `gen_sessions(d, total_hours)` (lines 36-56) for the day whose midnight
is `mid`. `cursor0` is the draw of `random.randint(day_start, latest)` and
`n` the draw of `random.choices([1, 2, 3], ...)`; both are oracle
parameters, constrained in the theorems. The loop starts at `i = 0` with
fuel `n`. -/
def gen_sessions (mid : Int) (total_hours : ℚ) (cursor0 : Int) (n : Nat)
    (u : Nat → ℚ) (g : Nat → Int) : List Session :=
  genLoop (day_end mid) u g n n 0 cursor0 (total_ms total_hours)

/-- Python `date.weekday()` on an ordinal day number: 0 is Monday. -/
def weekday (d : Int) : Int := (d + 6) % 7

/-- The `while d <= yesterday` loop of `past_weekdays` (lines 62-66), with
fuel equal to the exact number of iterations the loop performs. -/
def pastLoop (yesterday : Int) : Nat → Int → List Int
  | 0, _ => []
  | fuel + 1, d =>
    if d ≤ yesterday then
      (if weekday d < 5 then [d] else []) ++ pastLoop yesterday fuel (d + 1)
    else []

/-- Embedding of `past_weekdays(n_weeks)` (lines 58-67) relative to the ambient
`date.today()`, given as the ordinal `today`. The loop starts at
`today - 7 * n_weeks` and runs while `d ≤ today - 1`, i.e. exactly
`7 * n_weeks` times. -/
def past_weekdays (today : Int) (n_weeks : Nat) : List Int :=
  pastLoop (today - 1) (7 * n_weeks) (today - 7 * n_weeks)

/-- The inner body of `add_sessions` (lines 119-122): append the session
unless its `start` is already in the `existing` set. The Python `set` is
modelled by the list of starts with membership; `st` is the pair
(current session list of the task, current contents of `existing`). -/
def addOne (st : List Session × List Int) (s : Session) :
    List Session × List Int :=
  if s.start ∈ st.2 then st else (st.1 ++ [s], st.2 ++ [s.start])

/-- Embedding of `add_sessions(task, spec)` (lines 114-122), with the per-day coin flips,
hour draws and `gen_sessions` outputs abstracted into `gens`: the `j`-th
element of `gens` is the list of sessions produced for the `j`-th day that
was not skipped (a skipped day contributes nothing, the same as an empty
list). `existing` starts as the set of `start` values already on the task. -/
def add_sessions (task : Task) (gens : List (List Session)) : Task :=
  let init : List Session × List Int :=
    (task.sessions, task.sessions.map (fun s => s.start))
  let fin := gens.foldl (fun st gen => gen.foldl addOne st) init
  { task with sessions := fin.1 }

/-- Apply `f` to the task the Python dict `by_name` binds for `nm`: the
LAST task in the list with that name (later dict insertions win). In the
source the task object is mutated in place, so the list sees the update at
that position. If no task has the name, the list is unchanged (in `main`
this case never arises). -/
def updateLast : List Task → String → (Task → Task) → List Task
  | [], _, _ => []
  | t :: ts, nm, f =>
    if t.name = nm ∧ nm ∉ ts.map (fun x => x.name) then f t :: ts
    else t :: updateLast ts nm f

/-- The first loop of `main` (lines 106-110): for each `SEED_TASKS` spec
whose name is not yet a key of `by_name`, append a fresh task with an empty
session list. `ids nm` is the `uuid.uuid4()` draw for the task named `nm`. -/
def ensure_seed_tasks (tasks : List Task) (ids : String → String) : List Task :=
  SEED_TASKS.foldl
    (fun ts spec =>
      if spec.name ∈ ts.map (fun t => t.name) then ts
      else ts ++ [⟨ids spec.name, spec.name, []⟩])
    tasks

/-- The final loop of `main` (lines 130-131): sort each task by session
`start` (Python `list.sort` is stable; so is `List.mergeSort`). -/
def sortSessions (t : Task) : Task :=
  { t with sessions := t.sessions.mergeSort (fun a b => a.start ≤ b.start) }

/-- The read-modify-write transformation `main` applies to the decoded
`tasks` list of the user document (lines 104-131): create missing seed
tasks, run `add_sessions` for every seed spec and every enrichable
pre-existing task, then sort every session list. `gens nm` abstracts all
random draws of the `add_sessions` call for the task named `nm` (the names
of `SEED_TASKS` and `EXISTING_SEEDS` are pairwise distinct, so the key
identifies the call). -/
def run_seed (tasks : List Task) (ids : String → String)
    (gens : String → List (List Session)) : List Task :=
  let tasks1 := ensure_seed_tasks tasks ids
  let tasks2 := SEED_TASKS.foldl
    (fun ts spec => updateLast ts spec.name (fun t => add_sessions t (gens spec.name)))
    tasks1
  let tasks3 := EXISTING_SEEDS.foldl
    (fun ts spec =>
      if spec.name ∈ ts.map (fun t => t.name) then
        updateLast ts spec.name (fun t => add_sessions t (gens spec.name))
      else ts)
    tasks2
  tasks3.map sortSessions

/-- The database as the script sees it: `users` resolves an email to a user
id, `user_data` resolves a user id to the decoded `tasks` list of the
stored `tasks_json` document (`none` when no row exists). -/
structure DB where
  users : String → Option Nat
  user_data : Nat → Option (List Task)

/-- The effect of `main` (lines 91-146) on the database, plus whether the
run seeded (`true`) or stopped at the not-found message (`false`). A
missing `user_data` row decodes to `{"tasks": []}` (line 102); the final
upsert (lines 133-138) overwrites the row for `user_id` and nothing else. -/
def run_script (db : DB) (email : String) (ids : String → String)
    (gens : String → List (List Session)) : DB × Bool :=
  match db.users email with
  | none => (db, false)
  | some uid =>
    let tasks0 := (db.user_data uid).getD []
    let tasks := run_seed tasks0 ids gens
    (⟨db.users, fun u => if u = uid then some tasks else db.user_data u⟩, true)

/-- Total duration, in milliseconds, of a list of sessions. -/
def sumDur (l : List Session) : Int :=
  (l.map (fun s => s.stop - s.start)).sum

/-- Task `b` carries everything `a` did: same id, same name, and every session
of `a` still among the sessions of `b`. -/
def Preserves (a b : Task) : Prop :=
  a.id = b.id ∧ a.name = b.name ∧ ∀ s ∈ a.sessions, s ∈ b.sessions

/-- List `ys` extends `xs`: it is at least as long and position by position each
task of `xs` is preserved. -/
def ListExt (xs ys : List Task) : Prop :=
  xs.length ≤ ys.length ∧
  ∀ (i : Nat) (hx : i < xs.length) (hy : i < ys.length),
    Preserves (xs.get ⟨i, hx⟩) (ys.get ⟨i, hy⟩)

/-- No two sessions of the task share an identical `start` timestamp. -/
def NoDupStarts (t : Task) : Prop :=
  (t.sessions.map (fun s => s.start)).Nodup

/-- Invariant of the `add_sessions` state: the accumulated session list has
pairwise-distinct starts and the `existing` set contains all of them. -/
def StInv (st : List Session × List Int) : Prop :=
  (st.1.map (fun s => s.start)).Nodup ∧
    ∀ x ∈ st.1.map (fun s => s.start), x ∈ st.2

/-- Truncation toward zero of a nonnegative rational is nonnegative. -/
theorem pyInt_nonneg (q : ℚ) (h : 0 ≤ q) : 0 ≤ pyInt q := by
  rw [pyInt, if_neg (not_lt.mpr h)]
  exact Int.le_floor.mpr (by exact_mod_cast h)

/-- An integer below a nonnegative rational is below its truncation. -/
theorem le_pyInt (z : Int) (q : ℚ) (h0 : 0 ≤ q) (h : (z : ℚ) ≤ q) :
    z ≤ pyInt q := by
  rw [pyInt, if_neg (not_lt.mpr h0)]
  exact Int.le_floor.mpr h

/-- The truncation of a nonnegative rational is below any integer above it. -/
theorem pyInt_le_int (q : ℚ) (z : Int) (h0 : 0 ≤ q) (h : q ≤ (z : ℚ)) :
    pyInt q ≤ z := by
  rw [pyInt, if_neg (not_lt.mpr h0)]
  calc ⌊q⌋ ≤ ⌊((z : Int) : ℚ)⌋ := Int.floor_mono h
    _ = z := Int.floor_intCast z


/-! Properties of the weekday enumerator -/

/-- Every date the `while` loop of `past_weekdays` emits is a weekday and
lies between the starting date and `yesterday`, both inclusive. -/
theorem pastLoop_mem (yesterday : Int) :
    ∀ (fuel : Nat) (d0 d : Int), d ∈ pastLoop yesterday fuel d0 →
      weekday d < 5 ∧ d0 ≤ d ∧ d ≤ yesterday := by
  intro fuel
  induction fuel with
  | zero =>
    intro d0 d h
    simp [pastLoop] at h
  | succ k ih =>
    intro d0 d h
    rw [pastLoop] at h
    by_cases hle : d0 ≤ yesterday
    · rw [if_pos hle] at h
      rcases List.mem_append.mp h with h1 | h2
      · by_cases hw : weekday d0 < 5
        · rw [if_pos hw] at h1
          have : d = d0 := by simpa using h1
          subst this
          exact ⟨hw, le_refl d, hle⟩
        · rw [if_neg hw] at h1
          simp at h1
      · have := ih (d0 + 1) d h2
        exact ⟨this.1, by omega, this.2.2⟩
    · rw [if_neg hle] at h
      simp at h

/-- Claim C4: for the fixed reference day `today`, `past_weekdays(2)` returns
only dates that fall on Monday through Friday (`weekday d < 5`) and that
lie within the range from two weeks before today (`today - 14`) up to and
including yesterday (`today - 1`). -/
theorem past_weekdays_two_weeks (today d : Int)
    (hd : d ∈ past_weekdays today 2) :
    weekday d < 5 ∧ today - 14 ≤ d ∧ d ≤ today - 1 := by
  have h := pastLoop_mem (today - 1) (7 * 2) (today - 7 * 2) d hd
  refine ⟨h.1, ?_, h.2.2⟩
  have := h.2.1
  omega

/-- Witness for C4 at the concrete reference day with ordinal 22 (a Monday)
and the returned date 8 (the Monday two weeks earlier). -/
theorem past_weekdays_two_weeks_witness :
    (8 : Int) ∈ past_weekdays 22 2 ∧
      (weekday 8 < 5 ∧ (22 : Int) - 14 ≤ 8 ∧ (8 : Int) ≤ 22 - 1) :=
  ⟨by decide, past_weekdays_two_weeks 22 8 (by decide)⟩

/-! Properties of the session generator -/

/-- The generator loop emits at most one session per remaining iteration. -/
theorem genLoop_length_le (dayEnd : Int) (u : Nat → ℚ) (g : Nat → Int) (n : Nat) :
    ∀ (fuel i : Nat) (cursor remaining : Int),
      (genLoop dayEnd u g n fuel i cursor remaining).length ≤ fuel := by
  intro fuel
  induction fuel with
  | zero =>
    intro i cursor remaining
    simp [genLoop]
  | succ k ih =>
    intro i cursor remaining
    rw [genLoop]
    split
    · dsimp only
      repeat' split
      all_goals simp only [List.length_singleton, List.length_cons, List.length_nil]
      all_goals try omega
      all_goals exact Nat.succ_le_succ (ih (i + 1) _ _)
    · simp

/-- While the range test `i < n` holds, the loop body always appends the
session of the current iteration, so the result is nonempty. -/
theorem genLoop_length_pos (dayEnd : Int) (u : Nat → ℚ) (g : Nat → Int) (n : Nat)
    (fuel i : Nat) (cursor remaining : Int) (hfuel : 0 < fuel) (hi : i < n) :
    1 ≤ (genLoop dayEnd u g n fuel i cursor remaining).length := by
  obtain ⟨k, rfl⟩ : ∃ k, fuel = k + 1 := ⟨fuel - 1, by omega⟩
  rw [genLoop]
  rw [if_pos hi]
  dsimp only
  repeat' split
  all_goals simp

/-- Claim C5: for every calendar day and every target duration, `gen_sessions`
returns between 1 and 3 sessions (given that the draw of
`random.choices([1, 2, 3], ...)` satisfies `1 ≤ n ≤ 3`). -/
theorem gen_sessions_count (mid : Int) (total_hours : ℚ) (cursor0 : Int)
    (n : Nat) (u : Nat → ℚ) (g : Nat → Int)
    (hth : 3/10 ≤ total_hours) (hn1 : 1 ≤ n) (hn3 : n ≤ 3) :
    1 ≤ (gen_sessions mid total_hours cursor0 n u g).length ∧
      (gen_sessions mid total_hours cursor0 n u g).length ≤ 3 := by
  constructor
  · exact genLoop_length_pos _ u g n n 0 _ _ (by omega) (by omega)
  · exact le_trans (genLoop_length_le _ u g n n 0 _ _) hn3

/-- Witness for C5 at a concrete day, duration and oracle draws. -/
theorem gen_sessions_count_witness :
    (3/10 : ℚ) ≤ 1 ∧ 1 ≤ 2 ∧ 2 ≤ 3 ∧
      (1 ≤ (gen_sessions 0 1 32400000 2 (fun _ => 1/2) (fun _ => 10)).length ∧
        (gen_sessions 0 1 32400000 2 (fun _ => 1/2) (fun _ => 10)).length ≤ 3) :=
  ⟨by norm_num, by norm_num, by norm_num,
    gen_sessions_count 0 1 32400000 2 (fun _ => 1/2) (fun _ => 10)
      (by norm_num) (by norm_num) (by norm_num)⟩

/-- Each loop iteration consumes at most `chunk ≤ remaining` from the
budget, so the total duration of the emitted sessions never exceeds the
remaining budget (for any nonnegative budget and any in-range draws of
`random.uniform(0.35, 0.60)`, here relaxed to `[0, 1]`). -/
theorem genLoop_sum_le (dayEnd : Int) (u : Nat → ℚ) (g : Nat → Int) (n : Nat)
    (hu : ∀ j, 0 ≤ u j ∧ u j ≤ 1) :
    ∀ (fuel i : Nat) (cursor remaining : Int), 0 ≤ remaining → cursor ≤ dayEnd →
      sumDur (genLoop dayEnd u g n fuel i cursor remaining) ≤ remaining := by
  intro fuel
  induction fuel with
  | zero =>
    intro i c r h0 _
    simpa [genLoop, sumDur] using h0
  | succ k ih =>
    intro i cursor remaining h0 hcd
    rw [genLoop]
    by_cases hi : i < n
    · rw [if_pos hi]
      dsimp only
      set chunk : Int := if i = n - 1 then remaining else pyInt ((remaining : ℚ) * u i)
        with hchunk
      have hchunk0 : 0 ≤ chunk := by
        rw [hchunk]
        split
        · exact h0
        · have hq0 : (0 : ℚ) ≤ (remaining : ℚ) * u i :=
            mul_nonneg (by exact_mod_cast h0) (hu i).1
          rw [pyInt, if_neg (not_lt.mpr hq0)]
          exact Int.le_floor.mpr (by exact_mod_cast hq0)
      have hchunkr : chunk ≤ remaining := by
        rw [hchunk]
        split
        · exact le_refl _
        · have hq0 : (0 : ℚ) ≤ (remaining : ℚ) * u i :=
            mul_nonneg (by exact_mod_cast h0) (hu i).1
          rw [pyInt, if_neg (not_lt.mpr hq0)]
          have hle : (remaining : ℚ) * u i ≤ (remaining : ℚ) :=
            mul_le_of_le_one_right (by exact_mod_cast h0) (hu i).2
          calc ⌊(remaining : ℚ) * u i⌋ ≤ ⌊((remaining : Int) : ℚ)⌋ := Int.floor_mono hle
            _ = remaining := Int.floor_intCast remaining
      have hend2 : min (cursor + chunk) dayEnd - cursor ≤ chunk :=
        sub_le_iff_le_add.mpr (by
          have := min_le_left (cursor + chunk) dayEnd
          omega)
      split
      · simp only [sumDur, List.map_cons, List.map_nil, List.sum_cons, List.sum_nil,
          add_zero]
        omega
      · split
        · simp only [sumDur, List.map_cons, List.map_nil, List.sum_cons, List.sum_nil,
            add_zero]
          omega
        · rename_i hrem2 hcur2
          simp only [sumDur, List.map_cons, List.sum_cons]
          have hrec := ih (i + 1) (min (cursor + chunk) dayEnd + g i * 60000)
            (remaining - (min (cursor + chunk) dayEnd - cursor))
            (by omega) (by omega)
          simp only [sumDur] at hrec
          omega
    · rw [if_neg hi]
      simpa [sumDur] using h0

/-- Claim C9: for every calendar day and every target duration
`total_hours ≥ 0`, the total duration of the sessions returned by
`gen_sessions` is at most `int(total_hours * 3_600_000)`. The initial
cursor draw satisfies `cursor0 ≤ latest`, which keeps the cursor inside
the window, and the uniform draws lie in `[0.35, 0.60]`. -/
theorem gen_sessions_sum_le (mid : Int) (total_hours : ℚ) (cursor0 : Int)
    (n : Nat) (u : Nat → ℚ) (g : Nat → Int)
    (hth : 0 ≤ total_hours) (hc1 : cursor0 ≤ latest mid total_hours)
    (hu : ∀ j, 7/20 ≤ u j ∧ u j ≤ 3/5) :
    sumDur (gen_sessions mid total_hours cursor0 n u g) ≤ total_ms total_hours := by
  have htm : 0 ≤ total_ms total_hours := by
    have hq0 : (0 : ℚ) ≤ total_hours * 3600000 := by positivity
    rw [total_ms, pyInt, if_neg (not_lt.mpr hq0)]
    exact Int.le_floor.mpr (by exact_mod_cast hq0)
  have hcd : cursor0 ≤ day_end mid := by
    have h1 : latest mid total_hours ≤ day_end mid := by
      rw [latest]
      have h2 : day_start mid ≤ day_end mid := by
        simp only [day_start, day_end, to_ms]
        omega
      have h3 : day_end mid - total_ms total_hours - 1800000 ≤ day_end mid := by omega
      exact max_le h2 h3
    omega
  exact genLoop_sum_le (day_end mid) u g n
    (fun j => ⟨le_trans (by norm_num) (hu j).1, le_trans (hu j).2 (by norm_num)⟩)
    n 0 cursor0 (total_ms total_hours) htm hcd

/-- Witness for C9 at a concrete day, duration and oracle draws. -/
theorem gen_sessions_sum_le_witness :
    (0 : ℚ) ≤ 1 ∧ (32400000 : Int) ≤ latest 0 1 ∧
      sumDur (gen_sessions 0 1 32400000 2 (fun _ => 1/2) (fun _ => 10)) ≤
        total_ms 1 := by
  have h1 : (32400000 : Int) ≤ latest 0 1 := by
    rw [latest, total_ms, pyInt]
    norm_num [day_start, day_end, to_ms]
  exact ⟨by norm_num, h1,
    gen_sessions_sum_le 0 1 32400000 2 (fun _ => 1/2) (fun _ => 10)
      (by norm_num) h1 (fun j => by norm_num)⟩

/-- The cursor only moves forward: every session the loop emits starts at
or after the current cursor (given a nonnegative budget, a cursor inside
the window and nonnegative draws). -/
theorem genLoop_start_ge (dayEnd : Int) (u : Nat → ℚ) (g : Nat → Int) (n : Nat)
    (hu : ∀ j, 0 ≤ u j) (hg : ∀ j, 0 ≤ g j) :
    ∀ (fuel i : Nat) (cursor remaining : Int), 0 ≤ remaining → cursor ≤ dayEnd →
      ∀ s ∈ genLoop dayEnd u g n fuel i cursor remaining, cursor ≤ s.start := by
  intro fuel
  induction fuel with
  | zero =>
    intro i c r _ _ s hs
    simp [genLoop] at hs
  | succ k ih =>
    intro i cursor remaining h0 hcd s hs
    rw [genLoop] at hs
    by_cases hi : i < n
    · rw [if_pos hi] at hs
      dsimp only at hs
      set chunk : Int := if i = n - 1 then remaining else pyInt ((remaining : ℚ) * u i)
        with hchunk
      have hchunk0 : 0 ≤ chunk := by
        rw [hchunk]
        split
        · exact h0
        · exact pyInt_nonneg _ (mul_nonneg (by exact_mod_cast h0) (hu i))
      have hcur_end : cursor ≤ min (cursor + chunk) dayEnd := le_min (by omega) hcd
      split at hs
      · have hse : s = ⟨cursor, min (cursor + chunk) dayEnd⟩ := by simpa using hs
        rw [hse]
      · split at hs
        · have hse : s = ⟨cursor, min (cursor + chunk) dayEnd⟩ := by simpa using hs
          rw [hse]
        · rcases List.mem_cons.mp hs with hse | hrec
          · rw [hse]
          · rename_i hrem2 hcur2
            have hg60 : 0 ≤ g i * 60000 := mul_nonneg (hg i) (by norm_num)
            have := ih (i + 1) (min (cursor + chunk) dayEnd + g i * 60000)
              (remaining - (min (cursor + chunk) dayEnd - cursor))
              (by omega) (by omega) s hrec
            omega
    · rw [if_neg hi] at hs
      simp at hs

/-- Consecutive emitted sessions are separated by the randomized gap, so
every earlier session ends at least 5 minutes before every later one
starts (given in-range gap draws). -/
theorem genLoop_pairwise_gap (dayEnd : Int) (u : Nat → ℚ) (g : Nat → Int) (n : Nat)
    (hu : ∀ j, 0 ≤ u j) (hg : ∀ j, 5 ≤ g j) :
    ∀ (fuel i : Nat) (cursor remaining : Int), 0 ≤ remaining → cursor ≤ dayEnd →
      List.Pairwise (fun a b => a.stop + 300000 ≤ b.start)
        (genLoop dayEnd u g n fuel i cursor remaining) := by
  intro fuel
  induction fuel with
  | zero =>
    intro i c r _ _
    simp [genLoop]
  | succ k ih =>
    intro i cursor remaining h0 hcd
    rw [genLoop]
    by_cases hi : i < n
    · rw [if_pos hi]
      dsimp only
      set chunk : Int := if i = n - 1 then remaining else pyInt ((remaining : ℚ) * u i)
        with hchunk
      have hchunk0 : 0 ≤ chunk := by
        rw [hchunk]
        split
        · exact h0
        · exact pyInt_nonneg _ (mul_nonneg (by exact_mod_cast h0) (hu i))
      split
      · simp
      · split
        · simp
        · rename_i hrem2 hcur2
          rw [List.pairwise_cons]
          have hrem2' : 0 ≤ remaining - (min (cursor + chunk) dayEnd - cursor) := by omega
          have hcur2' : min (cursor + chunk) dayEnd + g i * 60000 ≤ dayEnd := by omega
          constructor
          · intro t ht
            have hst := genLoop_start_ge dayEnd u g n hu (fun j => le_trans (by norm_num) (hg j))
              k (i + 1) (min (cursor + chunk) dayEnd + g i * 60000)
              (remaining - (min (cursor + chunk) dayEnd - cursor))
              hrem2' hcur2' t ht
            have hg5 : 5 * 60000 ≤ g i * 60000 := by
              have := hg i
              nlinarith
            simp only
            omega
          · exact ih (i + 1) _ _ hrem2' hcur2'
    · rw [if_neg hi]
      simp

/-- Claim C10: the sessions returned by a single `gen_sessions` call are pairwise
separated: every earlier session in the returned list ends at least
5 minutes (300000 ms) before every later one starts; in particular the
list is strictly increasing and non-overlapping, and for consecutive
sessions the later `start` is at least the earlier `stop` plus 300000. -/
theorem gen_sessions_pairwise_gap (mid : Int) (total_hours : ℚ) (cursor0 : Int)
    (n : Nat) (u : Nat → ℚ) (g : Nat → Int)
    (hth : 3/10 ≤ total_hours) (hc1 : cursor0 ≤ latest mid total_hours)
    (hu : ∀ j, 7/20 ≤ u j ∧ u j ≤ 3/5) (hg : ∀ j, 5 ≤ g j ∧ g j ≤ 25) :
    List.Pairwise (fun a b => a.stop + 300000 ≤ b.start)
      (gen_sessions mid total_hours cursor0 n u g) := by
  have htm : 0 ≤ total_ms total_hours := by
    rw [total_ms]
    exact pyInt_nonneg _ (by positivity)
  have hcd : cursor0 ≤ day_end mid := by
    have h1 : latest mid total_hours ≤ day_end mid := by
      rw [latest]
      have h2 : day_start mid ≤ day_end mid := by
        simp only [day_start, day_end, to_ms]
        omega
      exact max_le h2 (by omega)
    omega
  exact genLoop_pairwise_gap (day_end mid) u g n
    (fun j => le_trans (by norm_num) (hu j).1) (fun j => (hg j).1)
    n 0 cursor0 (total_ms total_hours) htm hcd

/-- Witness for C10 at a concrete day, duration and oracle draws. -/
theorem gen_sessions_pairwise_gap_witness :
    (3/10 : ℚ) ≤ 1 ∧ (32400000 : Int) ≤ latest 0 1 ∧
      List.Pairwise (fun a b => a.stop + 300000 ≤ b.start)
        (gen_sessions 0 1 32400000 2 (fun _ => 1/2) (fun _ => 10)) := by
  have h1 : (32400000 : Int) ≤ latest 0 1 := by
    rw [latest, total_ms, pyInt]
    norm_num [day_start, day_end, to_ms]
  exact ⟨by norm_num, h1,
    gen_sessions_pairwise_gap 0 1 32400000 2 (fun _ => 1/2) (fun _ => 10)
      (by norm_num) h1 (fun j => by norm_num) (fun j => by norm_num)⟩

/-- Window invariant of the generator loop: if the budget still holds at
least `8 ^ (n - 1 - i)` ms (which the initial budget of a target of at
least 0.3 h guarantees for `n ≤ 3`), every emitted session starts at or
after `lo`, is nonempty (`start < stop`) and ends by `dayEnd`. The base
`8` comes from the uniform draws: a non-final chunk takes at most 3/5 of
the budget, so at least 2/5 survives, and `8 * 2/5 ≥ 1` keeps the bound. -/
theorem genLoop_window (dayEnd lo : Int) (u : Nat → ℚ) (g : Nat → Int) (n : Nat)
    (hu : ∀ j, 7/20 ≤ u j ∧ u j ≤ 3/5) (hg : ∀ j, 5 ≤ g j) :
    ∀ (fuel i : Nat) (cursor remaining : Int),
      lo ≤ cursor → cursor < dayEnd → (8 : Int) ^ (n - 1 - i) ≤ remaining →
      ∀ s ∈ genLoop dayEnd u g n fuel i cursor remaining,
        lo ≤ s.start ∧ s.start < s.stop ∧ s.stop ≤ dayEnd := by
  intro fuel
  induction fuel with
  | zero =>
    intro i cursor remaining _ _ _ s hs
    simp [genLoop] at hs
  | succ k ih =>
    intro i cursor remaining hlo hcd hrem s hs
    rw [genLoop] at hs
    by_cases hi : i < n
    · rw [if_pos hi] at hs
      dsimp only at hs
      set chunk : Int := if i = n - 1 then remaining else pyInt ((remaining : ℚ) * u i)
        with hchunk
      have hpow1 : (1 : Int) ≤ 8 ^ (n - 1 - i) := by
        have := pow_pos (show (0 : Int) < 8 by norm_num) (n - 1 - i)
        omega
      have hrem1 : 1 ≤ remaining := le_trans hpow1 hrem
      have hrem8 : i ≠ n - 1 → (8 : Int) ≤ remaining := by
        intro hlast
        have h1 : 1 ≤ n - 1 - i := by omega
        calc (8 : Int) = 8 ^ 1 := (pow_one 8).symm
          _ ≤ 8 ^ (n - 1 - i) := pow_le_pow_right₀ (by norm_num) h1
          _ ≤ remaining := hrem
      have hchunk1 : 1 ≤ chunk := by
        rw [hchunk]
        split
        · exact hrem1
        · rename_i hlast
          refine le_pyInt 1 _ (mul_nonneg (by exact_mod_cast le_trans one_pos.le hrem1)
            (le_trans (by norm_num) (hu i).1)) ?_
          have h8 : (8 : ℚ) ≤ (remaining : Int) := by exact_mod_cast hrem8 hlast
          calc (1 : ℚ) ≤ 8 * (7/20) := by norm_num
            _ ≤ (remaining : ℚ) * u i :=
              mul_le_mul h8 (hu i).1 (by norm_num) (by linarith)
      have hchunk_le : i ≠ n - 1 → (chunk : ℚ) ≤ (remaining : ℚ) * (3/5) := by
        intro hlast
        rw [hchunk, if_neg hlast]
        have hq0 : (0 : ℚ) ≤ (remaining : ℚ) * u i :=
          mul_nonneg (by exact_mod_cast le_trans one_pos.le hrem1)
            (le_trans (by norm_num) (hu i).1)
        rw [pyInt, if_neg (not_lt.mpr hq0)]
        calc ((⌊(remaining : ℚ) * u i⌋ : Int) : ℚ) ≤ (remaining : ℚ) * u i :=
            Int.floor_le _
          _ ≤ (remaining : ℚ) * (3/5) :=
            mul_le_mul_of_nonneg_left (hu i).2 (by exact_mod_cast le_trans one_pos.le hrem1)
      have hlt : cursor < min (cursor + chunk) dayEnd := lt_min (by omega) hcd
      have hsession : lo ≤ cursor ∧ cursor < min (cursor + chunk) dayEnd ∧
          min (cursor + chunk) dayEnd ≤ dayEnd :=
        ⟨hlo, hlt, min_le_right _ _⟩
      split at hs
      · have hse : s = ⟨cursor, min (cursor + chunk) dayEnd⟩ := by simpa using hs
        rw [hse]
        exact hsession
      · split at hs
        · have hse : s = ⟨cursor, min (cursor + chunk) dayEnd⟩ := by simpa using hs
          rw [hse]
          exact hsession
        · rcases List.mem_cons.mp hs with hse | hrec
          · rw [hse]
            exact hsession
          · rename_i hrem2 hcur2
            have hg60 : 0 ≤ g i * 60000 := mul_nonneg (le_trans (by norm_num) (hg i)) (by norm_num)
            refine ih (i + 1) (min (cursor + chunk) dayEnd + g i * 60000)
              (remaining - (min (cursor + chunk) dayEnd - cursor))
              (by omega) (by omega) ?_ s hrec
            by_cases hz : n - 1 - (i + 1) = 0
            · rw [hz, pow_zero]
              omega
            · have hlast : i ≠ n - 1 := by omega
              have hm : n - 1 - i = (n - 1 - (i + 1)) + 1 := by omega
              have hc1 : (chunk : ℚ) ≤ (remaining : ℚ) * (3/5) := hchunk_le hlast
              have hconsumed : min (cursor + chunk) dayEnd - cursor ≤ chunk := by
                have := min_le_left (cursor + chunk) dayEnd
                omega
              have hpq : ((8 : Int) ^ ((n - 1 - (i + 1)) + 1) : ℚ) ≤ (remaining : ℚ) := by
                rw [← hm]
                exact_mod_cast hrem
              have hrq : ((remaining - (min (cursor + chunk) dayEnd - cursor) : Int) : ℚ) ≥
                  (remaining : ℚ) - (chunk : ℚ) := by
                push_cast
                have : ((min (cursor + chunk) dayEnd - cursor : Int) : ℚ) ≤ (chunk : ℚ) := by
                  exact_mod_cast hconsumed
                push_cast at this
                linarith
              have hgoalq : ((8 : Int) ^ (n - 1 - (i + 1)) : ℚ) ≤
                  ((remaining - (min (cursor + chunk) dayEnd - cursor) : Int) : ℚ) := by
                have hp0 : (0 : ℚ) ≤ ((8 : Int) ^ (n - 1 - (i + 1)) : ℚ) := by positivity
                have hexp : ((8 : Int) ^ ((n - 1 - (i + 1)) + 1) : ℚ) =
                    ((8 : Int) ^ (n - 1 - (i + 1)) : ℚ) * 8 := by
                  push_cast
                  ring
                nlinarith
              exact_mod_cast hgoalq
    · rw [if_neg hi] at hs
      simp at hs

/-- Every entry of the two task tables has `min_h ≥ 0.3`, so every target
duration the driver draws is at least 0.3 h. -/
theorem spec_min_h (spec : TaskSpec) (h : spec ∈ SEED_TASKS ++ EXISTING_SEEDS) :
    3/10 ≤ spec.min_h := by
  simp only [SEED_TASKS, EXISTING_SEEDS, List.mem_append, List.mem_cons,
    List.not_mem_nil, or_false] at h
  rcases h with (h | h | h | h | h) | (h | h) <;> subst h <;> norm_num

/-- Claim C2: for every calendar day and every target duration drawn from the
`[min_h, max_h]` range of a task spec (hence at least 0.3 h), every
session returned by `gen_sessions` satisfies `start < stop`,
`start ≥ day_start` (09:00 of the day) and `stop ≤ day_end` (18:30 of the
day), for every in-range draw of the random oracles. -/
theorem gen_sessions_in_window (mid : Int) (spec : TaskSpec) (total_hours : ℚ)
    (cursor0 : Int) (n : Nat) (u : Nat → ℚ) (g : Nat → Int)
    (hspec : spec ∈ SEED_TASKS ++ EXISTING_SEEDS)
    (hlo : spec.min_h ≤ total_hours) (hhi : total_hours ≤ spec.max_h)
    (hc0 : day_start mid ≤ cursor0) (hc1 : cursor0 ≤ latest mid total_hours)
    (hn1 : 1 ≤ n) (hn3 : n ≤ 3)
    (hu : ∀ j, 7/20 ≤ u j ∧ u j ≤ 3/5) (hg : ∀ j, 5 ≤ g j ∧ g j ≤ 25) :
    ∀ s ∈ gen_sessions mid total_hours cursor0 n u g,
      day_start mid ≤ s.start ∧ s.start < s.stop ∧ s.stop ≤ day_end mid := by
  have hth : 3/10 ≤ total_hours := le_trans (spec_min_h spec hspec) hlo
  have htm : (1080000 : Int) ≤ total_ms total_hours := by
    rw [total_ms]
    refine le_pyInt _ _ (by positivity) ?_
    push_cast
    nlinarith
  have hrem : (8 : Int) ^ (n - 1 - 0) ≤ total_ms total_hours := by
    have h64 : (8 : Int) ^ (n - 1 - 0) ≤ 8 ^ 2 :=
      pow_le_pow_right₀ (by norm_num) (by omega)
    have : ((8 : Int) ^ 2) = 64 := by norm_num
    omega
  have hcd : cursor0 < day_end mid := by
    have h1 : latest mid total_hours < day_end mid := by
      rw [latest]
      have h2 : day_start mid < day_end mid := by
        simp only [day_start, day_end, to_ms]
        omega
      have h3 : day_end mid - total_ms total_hours - 1800000 < day_end mid := by omega
      omega
    omega
  exact genLoop_window (day_end mid) (day_start mid) u g n hu (fun j => (hg j).1)
    n 0 cursor0 (total_ms total_hours) hc0 hcd hrem

/-- Witness for C2 at a concrete day, spec, duration and oracle draws. -/
theorem gen_sessions_in_window_witness :
    (⟨"deep work", 85/100, 1, 35/10⟩ : TaskSpec) ∈ SEED_TASKS ++ EXISTING_SEEDS ∧
      (⟨"deep work", 85/100, 1, 35/10⟩ : TaskSpec).min_h ≤ (1 : ℚ) ∧
      (1 : ℚ) ≤ (⟨"deep work", 85/100, 1, 35/10⟩ : TaskSpec).max_h ∧
      day_start 0 ≤ (32400000 : Int) ∧ (32400000 : Int) ≤ latest 0 1 ∧
      (∀ s ∈ gen_sessions 0 1 32400000 2 (fun _ => 1/2) (fun _ => 10),
        day_start 0 ≤ s.start ∧ s.start < s.stop ∧ s.stop ≤ day_end 0) := by
  have hmem : (⟨"deep work", 85/100, 1, 35/10⟩ : TaskSpec) ∈ SEED_TASKS ++ EXISTING_SEEDS :=
    List.mem_append_left _ (List.mem_cons_self _ _)
  have hc0 : day_start 0 ≤ (32400000 : Int) := by
    norm_num [day_start, to_ms]
  have hc1 : (32400000 : Int) ≤ latest 0 1 := by
    rw [latest, total_ms, pyInt]
    norm_num [day_start, day_end, to_ms]
  exact ⟨hmem, by norm_num, by norm_num, hc0, hc1,
    gen_sessions_in_window 0 _ 1 32400000 2 (fun _ => 1/2) (fun _ => 10)
      hmem (by norm_num) (by norm_num) hc0 hc1 (by norm_num) (by norm_num)
      (fun j => by norm_num) (fun j => by norm_num)⟩

/-! Properties of the seeding driver -/


theorem Preserves_refl (a : Task) : Preserves a a :=
  ⟨rfl, rfl, fun _ hs => hs⟩

theorem Preserves_trans {a b c : Task} (h1 : Preserves a b) (h2 : Preserves b c) :
    Preserves a c :=
  ⟨h1.1.trans h2.1, h1.2.1.trans h2.2.1, fun s hs => h2.2.2 s (h1.2.2 s hs)⟩


theorem ListExt_refl (xs : List Task) : ListExt xs xs :=
  ⟨le_refl _, fun i hx _ => Preserves_refl _⟩

theorem ListExt_trans {xs ys zs : List Task}
    (h1 : ListExt xs ys) (h2 : ListExt ys zs) : ListExt xs zs := by
  refine ⟨le_trans h1.1 h2.1, fun i hx hz => ?_⟩
  have hy : i < ys.length := lt_of_lt_of_le hx h1.1
  exact Preserves_trans (h1.2 i hx hy) (h2.2 i hy hz)

theorem ListExt_cons {a b : Task} {xs ys : List Task}
    (hab : Preserves a b) (hxy : ListExt xs ys) : ListExt (a :: xs) (b :: ys) := by
  refine ⟨by simpa using Nat.succ_le_succ hxy.1, fun i hx hy => ?_⟩
  cases i with
  | zero => simpa using hab
  | succ j =>
    have hx' : j < xs.length := by simpa using hx
    have hy' : j < ys.length := by simpa using hy
    simpa using hxy.2 j hx' hy'

theorem ListExt_append (xs ex : List Task) : ListExt xs (xs ++ ex) := by
  induction xs with
  | nil => exact ⟨by simp, fun i hx _ => by simp at hx⟩
  | cons a xs ih => exact ListExt_cons (Preserves_refl a) ih

/-- The inner `for s in gen_sessions(...)` loop only ever appends to the
current session list. -/
theorem foldl_addOne_appends (gen : List Session) :
    ∀ st : List Session × List Int, ∃ ex, (gen.foldl addOne st).1 = st.1 ++ ex := by
  induction gen with
  | nil =>
    intro st
    exact ⟨[], by simp⟩
  | cons s rest ih =>
    intro st
    rw [List.foldl_cons]
    obtain ⟨ex, hex⟩ := ih (addOne st s)
    by_cases h : s.start ∈ st.2
    · exact ⟨ex, by rw [hex]; simp [addOne, h]⟩
    · exact ⟨s :: ex, by rw [hex]; simp [addOne, h]⟩

/-- The outer `for d in days` loop of `add_sessions` only ever appends. -/
theorem foldl_gens_appends (gens : List (List Session)) :
    ∀ st : List Session × List Int,
      ∃ ex, (gens.foldl (fun st gen => gen.foldl addOne st) st).1 = st.1 ++ ex := by
  induction gens with
  | nil =>
    intro st
    exact ⟨[], by simp⟩
  | cons gen rest ih =>
    intro st
    rw [List.foldl_cons]
    obtain ⟨ex1, hex1⟩ := foldl_addOne_appends gen st
    obtain ⟨ex2, hex2⟩ := ih (gen.foldl addOne st)
    exact ⟨ex1 ++ ex2, by rw [hex2, hex1, List.append_assoc]⟩

/-- The function `add_sessions` keeps id and name and only appends sessions. -/
theorem add_sessions_preserves (t : Task) (gens : List (List Session)) :
    Preserves t (add_sessions t gens) := by
  refine ⟨rfl, rfl, fun s hs => ?_⟩
  rw [add_sessions]
  obtain ⟨ex, hex⟩ := foldl_gens_appends gens (t.sessions, t.sessions.map (fun s => s.start))
  simp only [hex]
  exact List.mem_append_left _ hs

theorem updateLast_ext (nm : String) (f : Task → Task)
    (hf : ∀ t, Preserves t (f t)) :
    ∀ ts : List Task, ListExt ts (updateLast ts nm f) := by
  intro ts
  induction ts with
  | nil => exact ListExt_refl []
  | cons t ts ih =>
    rw [updateLast]
    split
    · exact ListExt_cons (hf t) (ListExt_refl ts)
    · exact ListExt_cons (Preserves_refl t) ih

/-- The task-creation loop only appends fresh tasks. -/
theorem ensure_foldl_extends (ids : String → String) :
    ∀ (specs : List TaskSpec) (ts : List Task),
      ∃ ex, specs.foldl
        (fun ts spec =>
          if spec.name ∈ ts.map (fun t => t.name) then ts
          else ts ++ [⟨ids spec.name, spec.name, []⟩]) ts = ts ++ ex := by
  intro specs
  induction specs with
  | nil =>
    intro ts
    exact ⟨[], by simp⟩
  | cons spec rest ih =>
    intro ts
    rw [List.foldl_cons]
    by_cases h : spec.name ∈ ts.map (fun t => t.name)
    · rw [if_pos h]
      exact ih ts
    · rw [if_neg h]
      obtain ⟨ex, hex⟩ := ih (ts ++ [⟨ids spec.name, spec.name, []⟩])
      exact ⟨⟨ids spec.name, spec.name, []⟩ :: ex, by rw [hex, List.append_assoc]; rfl⟩

theorem ensure_seed_tasks_extends (tasks : List Task) (ids : String → String) :
    ∃ ex, ensure_seed_tasks tasks ids = tasks ++ ex :=
  ensure_foldl_extends ids SEED_TASKS tasks

/-- The `add_sessions` loop over `SEED_TASKS` preserves every task slot. -/
theorem seedFold_ext (gens : String → List (List Session)) :
    ∀ (specs : List TaskSpec) (ts : List Task),
      ListExt ts (specs.foldl
        (fun ts spec => updateLast ts spec.name (fun t => add_sessions t (gens spec.name)))
        ts) := by
  intro specs
  induction specs with
  | nil =>
    intro ts
    exact ListExt_refl ts
  | cons spec rest ih =>
    intro ts
    rw [List.foldl_cons]
    refine ListExt_trans ?_ (ih _)
    exact updateLast_ext _ _ (fun t => add_sessions_preserves t _) ts

/-- The `add_sessions` loop over `EXISTING_SEEDS` preserves every slot. -/
theorem existingFold_ext (gens : String → List (List Session)) :
    ∀ (specs : List TaskSpec) (ts : List Task),
      ListExt ts (specs.foldl
        (fun ts spec =>
          if spec.name ∈ ts.map (fun t => t.name) then
            updateLast ts spec.name (fun t => add_sessions t (gens spec.name))
          else ts)
        ts) := by
  intro specs
  induction specs with
  | nil =>
    intro ts
    exact ListExt_refl ts
  | cons spec rest ih =>
    intro ts
    rw [List.foldl_cons]
    refine ListExt_trans ?_ (ih _)
    split
    · exact updateLast_ext _ _ (fun t => add_sessions_preserves t _) ts
    · exact ListExt_refl ts

/-- Sorting a session list is a permutation, so it preserves the task. -/
theorem sortSessions_preserves (t : Task) : Preserves t (sortSessions t) :=
  ⟨rfl, rfl, fun s hs => List.mem_mergeSort.mpr hs⟩

theorem map_sortSessions_ext (ts : List Task) : ListExt ts (ts.map sortSessions) := by
  induction ts with
  | nil => exact ListExt_refl []
  | cons t ts ih => exact ListExt_cons (sortSessions_preserves t) ih

/-- The whole transformation extends the initial task list slot by slot. -/
theorem run_seed_ext (tasks : List Task) (ids : String → String)
    (gens : String → List (List Session)) :
    ListExt tasks (run_seed tasks ids gens) := by
  rw [run_seed]
  obtain ⟨ex, hex⟩ := ensure_seed_tasks_extends tasks ids
  refine ListExt_trans (ListExt_trans (ListExt_trans ?_ (seedFold_ext gens SEED_TASKS _))
    (existingFold_ext gens EXISTING_SEEDS _)) (map_sortSessions_ext _)
  rw [hex]
  exact ListExt_append tasks ex

/-- Claim C1: the seeding transformation is additive only. For every initial
user document, every task present before the run is still present after
it (same slot, same id, same name), and every session it had is still
among its sessions after the run. -/
theorem run_seed_additive (tasks : List Task) (ids : String → String)
    (gens : String → List (List Session)) (i : Nat) (hx : i < tasks.length) :
    ∃ hy : i < (run_seed tasks ids gens).length,
      (tasks.get ⟨i, hx⟩).id = ((run_seed tasks ids gens).get ⟨i, hy⟩).id ∧
      (tasks.get ⟨i, hx⟩).name = ((run_seed tasks ids gens).get ⟨i, hy⟩).name ∧
      ∀ s ∈ (tasks.get ⟨i, hx⟩).sessions,
        s ∈ ((run_seed tasks ids gens).get ⟨i, hy⟩).sessions := by
  have hext := run_seed_ext tasks ids gens
  have hy : i < (run_seed tasks ids gens).length := lt_of_lt_of_le hx hext.1
  exact ⟨hy, hext.2 i hx hy⟩

/-- Witness for C1: a document with one task holding one session, run with
concrete oracle draws. -/
theorem run_seed_additive_witness :
    (0 : Nat) < ([⟨"a", "my task", [⟨1, 2⟩]⟩] : List Task).length ∧
      ∃ hy : (0 : Nat) <
          (run_seed [⟨"a", "my task", [⟨1, 2⟩]⟩] (fun _ => "id") (fun _ => [])).length,
        (([⟨"a", "my task", [⟨1, 2⟩]⟩] : List Task).get ⟨0, by norm_num⟩).id =
          ((run_seed [⟨"a", "my task", [⟨1, 2⟩]⟩] (fun _ => "id") (fun _ => [])).get
            ⟨0, hy⟩).id ∧
        (([⟨"a", "my task", [⟨1, 2⟩]⟩] : List Task).get ⟨0, by norm_num⟩).name =
          ((run_seed [⟨"a", "my task", [⟨1, 2⟩]⟩] (fun _ => "id") (fun _ => [])).get
            ⟨0, hy⟩).name ∧
        ∀ s ∈ (([⟨"a", "my task", [⟨1, 2⟩]⟩] : List Task).get ⟨0, by norm_num⟩).sessions,
          s ∈ ((run_seed [⟨"a", "my task", [⟨1, 2⟩]⟩] (fun _ => "id") (fun _ => [])).get
            ⟨0, hy⟩).sessions :=
  ⟨by norm_num,
    run_seed_additive [⟨"a", "my task", [⟨1, 2⟩]⟩] (fun _ => "id") (fun _ => [])
      0 (by norm_num)⟩

/-- Claim C6: after a run, the session list of every task is sorted in
non-decreasing order of `start` (the final loop of `main` sorts every task). -/
theorem run_seed_sessions_sorted (tasks : List Task) (ids : String → String)
    (gens : String → List (List Session)) :
    ∀ t ∈ run_seed tasks ids gens,
      List.Pairwise (fun a b : Session => a.start ≤ b.start) t.sessions := by
  intro t ht
  rw [run_seed] at ht
  obtain ⟨t', _, rfl⟩ := List.mem_map.mp ht
  have h := @List.sorted_mergeSort Session (fun a b => a.start ≤ b.start)
    (by intro a b c h1 h2; simp only [decide_eq_true_eq] at *; omega)
    (by intro a b; simp only [Bool.or_eq_true, decide_eq_true_eq]; omega)
    t'.sessions
  rw [sortSessions]
  simpa using h

/-- Witness for C6: a concrete run on the empty document, checked on the
first created task. -/
theorem run_seed_sessions_sorted_witness :
    (⟨"id", "deep work", []⟩ : Task) ∈ run_seed [] (fun _ => "id") (fun _ => []) ∧
      List.Pairwise (fun a b : Session => a.start ≤ b.start)
        (Task.mk "id" "deep work" []).sessions := by
  have hrun : run_seed [] (fun _ => "id") (fun _ => []) =
      [⟨"id", "deep work", []⟩, ⟨"id", "email & slack", []⟩, ⟨"id", "code review", []⟩,
       ⟨"id", "meetings", []⟩, ⟨"id", "planning", []⟩] := by
    simp [run_seed, ensure_seed_tasks, SEED_TASKS, EXISTING_SEEDS, updateLast,
      add_sessions, addOne, sortSessions]
  have hmem : (⟨"id", "deep work", []⟩ : Task) ∈ run_seed [] (fun _ => "id") (fun _ => []) := by
    rw [hrun]
    exact List.mem_cons_self _ _
  exact ⟨hmem,
    run_seed_sessions_sorted [] (fun _ => "id") (fun _ => []) ⟨"id", "deep work", []⟩ hmem⟩

/-- The function `updateLast` never changes the multiset of names when the update
function keeps the name. -/
theorem updateLast_names (nm : String) (f : Task → Task)
    (hf : ∀ t, (f t).name = t.name) :
    ∀ ts : List Task,
      (updateLast ts nm f).map (fun t => t.name) = ts.map (fun t => t.name) := by
  intro ts
  induction ts with
  | nil => rfl
  | cons t ts ih =>
    rw [updateLast]
    split
    · simp [hf]
    · simp [ih]

/-- The `SEED_TASKS` session loop does not change the list of names. -/
theorem seedFold_names (gens : String → List (List Session)) :
    ∀ (specs : List TaskSpec) (ts : List Task),
      ((specs.foldl
        (fun ts spec => updateLast ts spec.name (fun t => add_sessions t (gens spec.name)))
        ts).map (fun t => t.name)) = ts.map (fun t => t.name) := by
  intro specs
  induction specs with
  | nil => intro ts; rfl
  | cons spec rest ih =>
    intro ts
    rw [List.foldl_cons, ih,
      updateLast_names spec.name (fun t => add_sessions t (gens spec.name)) (fun t => rfl)]

/-- The `EXISTING_SEEDS` session loop does not change the list of names. -/
theorem existingFold_names (gens : String → List (List Session)) :
    ∀ (specs : List TaskSpec) (ts : List Task),
      ((specs.foldl
        (fun ts spec =>
          if spec.name ∈ ts.map (fun t => t.name) then
            updateLast ts spec.name (fun t => add_sessions t (gens spec.name))
          else ts)
        ts).map (fun t => t.name)) = ts.map (fun t => t.name) := by
  intro specs
  induction specs with
  | nil => intro ts; rfl
  | cons spec rest ih =>
    intro ts
    rw [List.foldl_cons]
    split
    · rw [ih,
        updateLast_names spec.name (fun t => add_sessions t (gens spec.name)) (fun t => rfl)]
    · rw [ih]

/-- Sorting sessions does not change the list of names. -/
theorem sortMap_names (ts : List Task) :
    (ts.map sortSessions).map (fun t => t.name) = ts.map (fun t => t.name) := by
  simp [List.map_map, Function.comp, sortSessions]

/-- The names after a run are exactly the names after task creation: the
session loops and the final sort never rename, add or remove tasks. -/
theorem run_seed_names (tasks : List Task) (ids : String → String)
    (gens : String → List (List Session)) :
    (run_seed tasks ids gens).map (fun t => t.name) =
      (ensure_seed_tasks tasks ids).map (fun t => t.name) := by
  simp only [run_seed]
  rw [sortMap_names, existingFold_names, seedFold_names]

/-- Claim C7: seeding a user whose document has an empty task list creates
exactly the 5 predefined tasks, in table order and with these names, and
creates no task named in the pre-existing-enrichment table. -/
theorem run_seed_empty_doc (ids : String → String)
    (gens : String → List (List Session)) :
    (run_seed [] ids gens).map (fun t => t.name) =
      ["deep work", "email & slack", "code review", "meetings", "planning"] ∧
    "React Query" ∉ (run_seed [] ids gens).map (fun t => t.name) ∧
    "Interview Prep" ∉ (run_seed [] ids gens).map (fun t => t.name) := by
  have h : (run_seed [] ids gens).map (fun t => t.name) =
      ["deep work", "email & slack", "code review", "meetings", "planning"] := by
    rw [run_seed_names]
    simp [ensure_seed_tasks, SEED_TASKS]
  refine ⟨h, ?_, ?_⟩ <;> rw [h] <;> simp

/-- Claim C8: if the user lookup by email returns no row, the script prints the
not-found message and returns without writing: the database is unchanged
and no seeding happens. -/
theorem run_script_user_not_found (db : DB) (email : String)
    (ids : String → String) (gens : String → List (List Session))
    (h : db.users email = none) :
    (run_script db email ids gens).1 = db ∧
      (run_script db email ids gens).2 = false := by
  simp [run_script, h]

/-- Witness for C8: an empty database and an unknown email. -/
theorem run_script_user_not_found_witness :
    (DB.mk (fun _ => none) (fun _ => none)).users "nobody@example.com" = none ∧
      ((run_script ⟨fun _ => none, fun _ => none⟩ "nobody@example.com"
          (fun _ => "id") (fun _ => [])).1 = ⟨fun _ => none, fun _ => none⟩ ∧
        (run_script ⟨fun _ => none, fun _ => none⟩ "nobody@example.com"
          (fun _ => "id") (fun _ => [])).2 = false) :=
  ⟨rfl, run_script_user_not_found ⟨fun _ => none, fun _ => none⟩ "nobody@example.com"
    (fun _ => "id") (fun _ => []) rfl⟩



theorem addOne_inv (st : List Session × List Int) (s : Session)
    (h : StInv st) : StInv (addOne st s) := by
  rw [addOne]
  split
  · exact h
  · rename_i hnot
    constructor
    · simp only [List.map_append, List.map_cons, List.map_nil]
      rw [List.nodup_append]
      refine ⟨h.1, List.nodup_singleton _, ?_⟩
      intro x hx hx1
      have : x = s.start := by simpa using hx1
      subst this
      exact hnot (h.2 _ hx)
    · intro x hx
      simp only [List.map_append, List.map_cons, List.map_nil,
        List.mem_append, List.mem_singleton] at hx
      rcases hx with hx | hx
      · exact List.mem_append_left _ (h.2 x hx)
      · subst hx
        simp

theorem foldl_addOne_inv (gen : List Session) :
    ∀ st : List Session × List Int, StInv st → StInv (gen.foldl addOne st) := by
  induction gen with
  | nil => intro st h; exact h
  | cons s rest ih =>
    intro st h
    rw [List.foldl_cons]
    exact ih _ (addOne_inv st s h)

theorem foldl_gens_inv (gens : List (List Session)) :
    ∀ st : List Session × List Int,
      StInv st → StInv (gens.foldl (fun st gen => gen.foldl addOne st) st) := by
  induction gens with
  | nil => intro st h; exact h
  | cons gen rest ih =>
    intro st h
    rw [List.foldl_cons]
    exact ih _ (foldl_addOne_inv gen st h)

/-- `add_sessions` only appends sessions whose `start` is not yet present,
so it preserves distinctness of starts. -/
theorem add_sessions_nodup (t : Task) (gens : List (List Session))
    (h : NoDupStarts t) : NoDupStarts (add_sessions t gens) := by
  rw [add_sessions, NoDupStarts]
  exact (foldl_gens_inv gens (t.sessions, t.sessions.map (fun s => s.start))
    ⟨h, fun x hx => hx⟩).1

/-- The function `updateLast` preserves any per-task property that `f` preserves. -/
theorem updateLast_forall (P : Task → Prop) (nm : String) (f : Task → Task)
    (hf : ∀ t, P t → P (f t)) :
    ∀ ts : List Task, (∀ t ∈ ts, P t) → ∀ t ∈ updateLast ts nm f, P t := by
  intro ts
  induction ts with
  | nil => intro _ t ht; simp [updateLast] at ht
  | cons a ts ih =>
    intro hall t ht
    rw [updateLast] at ht
    split at ht
    · rcases List.mem_cons.mp ht with h | h
      · subst h
        exact hf a (hall a (List.mem_cons_self _ _))
      · exact hall t (List.mem_cons_of_mem _ h)
    · rcases List.mem_cons.mp ht with h | h
      · subst h
        exact hall t (List.mem_cons_self _ _)
      · exact ih (fun x hx => hall x (List.mem_cons_of_mem _ hx)) t h

/-- Every task in the result of the creation loop is either an original
task or a freshly created one with no sessions. -/
theorem ensure_foldl_mem (ids : String → String) :
    ∀ (specs : List TaskSpec) (ts : List Task),
      ∀ t ∈ specs.foldl
        (fun ts spec =>
          if spec.name ∈ ts.map (fun t => t.name) then ts
          else ts ++ [⟨ids spec.name, spec.name, []⟩]) ts,
        t ∈ ts ∨ t.sessions = [] := by
  intro specs
  induction specs with
  | nil =>
    intro ts t ht
    exact Or.inl ht
  | cons spec rest ih =>
    intro ts t ht
    rw [List.foldl_cons] at ht
    by_cases h : spec.name ∈ ts.map (fun t => t.name)
    · rw [if_pos h] at ht
      exact ih ts t ht
    · rw [if_neg h] at ht
      rcases ih _ t ht with hmem | hemp
      · rcases List.mem_append.mp hmem with h1 | h2
        · exact Or.inl h1
        · have : t = ⟨ids spec.name, spec.name, []⟩ := by simpa using h2
          subst this
          exact Or.inr rfl
      · exact Or.inr hemp

theorem seedFold_nodup (gens : String → List (List Session)) :
    ∀ (specs : List TaskSpec) (ts : List Task),
      (∀ t ∈ ts, NoDupStarts t) →
      ∀ t ∈ specs.foldl
        (fun ts spec => updateLast ts spec.name (fun t => add_sessions t (gens spec.name)))
        ts, NoDupStarts t := by
  intro specs
  induction specs with
  | nil => intro ts h t ht; exact h t ht
  | cons spec rest ih =>
    intro ts h t ht
    rw [List.foldl_cons] at ht
    exact ih _ (updateLast_forall NoDupStarts spec.name _
      (fun x hx => add_sessions_nodup x _ hx) ts h) t ht

theorem existingFold_nodup (gens : String → List (List Session)) :
    ∀ (specs : List TaskSpec) (ts : List Task),
      (∀ t ∈ ts, NoDupStarts t) →
      ∀ t ∈ specs.foldl
        (fun ts spec =>
          if spec.name ∈ ts.map (fun t => t.name) then
            updateLast ts spec.name (fun t => add_sessions t (gens spec.name))
          else ts)
        ts, NoDupStarts t := by
  intro specs
  induction specs with
  | nil => intro ts h t ht; exact h t ht
  | cons spec rest ih =>
    intro ts h t ht
    rw [List.foldl_cons] at ht
    by_cases hc : spec.name ∈ ts.map (fun t => t.name)
    · rw [if_pos hc] at ht
      exact ih _ (updateLast_forall NoDupStarts spec.name _
        (fun x hx => add_sessions_nodup x _ hx) ts h) t ht
    · rw [if_neg hc] at ht
      exact ih _ h t ht

/-- Sorting is a permutation of the sessions, so it preserves distinctness
of starts. -/
theorem sortSessions_nodup (t : Task) (h : NoDupStarts t) :
    NoDupStarts (sortSessions t) := by
  rw [NoDupStarts, sortSessions]
  have hperm := (List.mergeSort_perm t.sessions (fun a b => a.start ≤ b.start)).map
    (fun s => s.start)
  exact hperm.nodup_iff.mpr h

/-- Claim C3, amended: the run preserves distinctness of `start` timestamps: if
in the initial document no task has two sessions with an identical `start`,
then after the run no task has two sessions with an identical `start`.
(New sessions are only appended when their `start` is absent, and the
pre-existing sessions are never deduplicated.) -/
theorem run_seed_nodup_starts (tasks : List Task) (ids : String → String)
    (gens : String → List (List Session))
    (h0 : ∀ t ∈ tasks, NoDupStarts t) :
    ∀ t ∈ run_seed tasks ids gens, NoDupStarts t := by
  intro t ht
  simp only [run_seed] at ht
  obtain ⟨t', ht', rfl⟩ := List.mem_map.mp ht
  refine sortSessions_nodup t' ?_
  have h1 : ∀ t ∈ ensure_seed_tasks tasks ids, NoDupStarts t := by
    intro x hx
    rcases ensure_foldl_mem ids SEED_TASKS tasks x hx with hmem | hemp
    · exact h0 x hmem
    · rw [NoDupStarts, hemp]
      simp
  have h2 := seedFold_nodup gens SEED_TASKS _ h1
  have h3 := existingFold_nodup gens EXISTING_SEEDS _ h2
  exact h3 t' ht'

/-- Witness for the amended C3 at a concrete document and oracle draws. -/
theorem run_seed_nodup_starts_witness :
    (∀ t ∈ ([⟨"a", "my task", [⟨0, 1⟩, ⟨5, 9⟩]⟩] : List Task), NoDupStarts t) ∧
      ∀ t ∈ run_seed [⟨"a", "my task", [⟨0, 1⟩, ⟨5, 9⟩]⟩] (fun _ => "id") (fun _ => []),
        NoDupStarts t := by
  have h0 : ∀ t ∈ ([⟨"a", "my task", [⟨0, 1⟩, ⟨5, 9⟩]⟩] : List Task), NoDupStarts t := by
    intro t ht
    have : t = ⟨"a", "my task", [⟨0, 1⟩, ⟨5, 9⟩]⟩ := by simpa using ht
    subst this
    rw [NoDupStarts]
    simp
  exact ⟨h0,
    run_seed_nodup_starts [⟨"a", "my task", [⟨0, 1⟩, ⟨5, 9⟩]⟩] (fun _ => "id")
      (fun _ => []) h0⟩

/-- Claim C3 counterexample: the claim as stated fails, because pre-existing
duplicate starts are never removed. A document whose single task already
holds two sessions with `start = 0` still holds them after a run in which
every day is skipped. -/
theorem run_seed_nodup_starts_counterexample :
    ¬ ∀ (tasks : List Task) (ids : String → String)
        (gens : String → List (List Session)),
        ∀ t ∈ run_seed tasks ids gens, NoDupStarts t := by
  intro h
  have hrun : run_seed [⟨"a", "my task", [⟨0, 1⟩, ⟨0, 2⟩]⟩] (fun _ => "id") (fun _ => []) =
      [⟨"a", "my task", [⟨0, 1⟩, ⟨0, 2⟩]⟩,
       ⟨"id", "deep work", []⟩, ⟨"id", "email & slack", []⟩, ⟨"id", "code review", []⟩,
       ⟨"id", "meetings", []⟩, ⟨"id", "planning", []⟩] := by
    simp [run_seed, ensure_seed_tasks, SEED_TASKS, EXISTING_SEEDS, updateLast,
      add_sessions, addOne, sortSessions, List.mergeSort]
  have hin : (⟨"a", "my task", [⟨0, 1⟩, ⟨0, 2⟩]⟩ : Task) ∈
      run_seed [⟨"a", "my task", [⟨0, 1⟩, ⟨0, 2⟩]⟩] (fun _ => "id") (fun _ => []) := by
    rw [hrun]
    exact List.mem_cons_self _ _
  have hdup := h [⟨"a", "my task", [⟨0, 1⟩, ⟨0, 2⟩]⟩] (fun _ => "id") (fun _ => [])
    ⟨"a", "my task", [⟨0, 1⟩, ⟨0, 2⟩]⟩ hin
  rw [NoDupStarts] at hdup
  simp at hdup

end Seed
